import Mathlib

/-
Formal model of the LLAMA spinlock header `src/llama/include/llama/ll_lock.h`
(the non-sanitizer backend: a hand-rolled test-and-test-and-set spinlock on a
`volatile int32_t` flag, plus the cache-line padded spinlock table
`ll_spinlock_table_ext<size>`).

Conventions of the embedding:
  * the `volatile int32_t` lock word is modelled as `Int` (its value is only
    ever 0 or 1 under the operations below, so 32-bit wrap-around is moot);
  * `__sync_lock_test_and_set(ptr, 1)` atomically stores 1 and returns the old
    value; it is modelled as a function from the old lock value to the pair
    (returned old value compared with 0, new lock value);
  * the busy-wait loop of `ll_spinlock_acquire` is modelled as a small-step
    transition system, one transition per atomic or volatile access, so that
    interleavings with other threads can be expressed;
  * `__sync_synchronize()` is a memory fence: it has no effect on the value of
    the lock word, so in this value-level model it is the identity;
  * the backing array of the table is modelled as a map from word offsets to
    lock words, and the C cast `(uint32_t)` as reduction modulo 2 ^ 32.
-/

namespace LlamaLock

/-- Model of `ll_spinlock_t`: the value of the `volatile int32_t` lock word.
Value 0 means free; the test-and-set writes 1 (held). -/
abbrev ll_spinlock_t := Int

/-- Model of `ll_spinlock_init`: the body is `*ptr_lock = 0;`, so the lock
word after initialization is 0. -/
def ll_spinlock_init : ll_spinlock_t := 0

/-- Model of `ll_spinlock_destroy`: the body is a no-op. -/
def ll_spinlock_destroy (s : ll_spinlock_t) : ll_spinlock_t := s

/-- Model of `ll_spinlock_try_acquire`:
`int ret = __sync_lock_test_and_set(ptr, 1); return ret == 0;`.
Given the lock word value at the instant of the atomic exchange, it returns
the boolean result together with the new lock word value (always 1). -/
def ll_spinlock_try_acquire (s : ll_spinlock_t) : Bool × ll_spinlock_t :=
  (s == 0, 1)

/-- Model of `ll_spinlock_release`:
`__sync_synchronize(); *ptr = 0;`. The fence does not change the lock word;
the store resets it to 0 whatever it held and whoever the caller is (the
function has no ownership information at all). -/
def ll_spinlock_release (_ : ll_spinlock_t) : ll_spinlock_t := 0

/-- Control location inside the body of `ll_spinlock_acquire`:
`tas` is the head of the outer loop (about to run `__sync_lock_test_and_set`),
`spin` is the head of the inner loop (about to do the plain volatile read
`*ptr == 1`), and `finished` means the function has returned. -/
inductive AcquirePhase
  | tas : AcquirePhase
  | spin : AcquirePhase
  | finished : AcquirePhase
deriving DecidableEq

/-- Small-step semantics of the body of `ll_spinlock_acquire`:

    while (__sync_lock_test_and_set(ptr, 1)) {
        while (*ptr == 1) { asm volatile ("pause" ::: "memory"); }
    }

A configuration is (control location, current lock word value). Each step is
one atomic exchange or one plain read. The environment (other threads) may
change the lock word between steps; that is expressed by quantifying over the
lock value in each transition. -/
inductive ll_spinlock_acquire_step :
    AcquirePhase × Int → AcquirePhase × Int → Prop
  | tas_success (s : Int) : s = 0 →
      ll_spinlock_acquire_step (.tas, s) (.finished, 1)
  | tas_fail (s : Int) : s ≠ 0 →
      ll_spinlock_acquire_step (.tas, s) (.spin, 1)
  | spin_wait (s : Int) : s = 1 →
      ll_spinlock_acquire_step (.spin, s) (.spin, s)
  | spin_exit (s : Int) : s ≠ 1 →
      ll_spinlock_acquire_step (.spin, s) (.tas, s)

/-- Lock word values reachable from `ll_spinlock_init` by any sequence of the
operations of the header: `ll_spinlock_try_acquire`, any single step of
`ll_spinlock_acquire`, and `ll_spinlock_release`. -/
inductive LockReach : Int → Prop
  | init : LockReach ll_spinlock_init
  | try_acq (s : Int) : LockReach s →
      LockReach (ll_spinlock_try_acquire s).2
  | release (s : Int) : LockReach s →
      LockReach (ll_spinlock_release s)
  | acq (p p' : AcquirePhase) (s s' : Int) : LockReach s →
      ll_spinlock_acquire_step (p, s) (p', s') → LockReach s'

/-! Interleaving model of the mutual-exclusion benchmark of the spec: N
threads each run M iterations of { acquire the same lock; read the shared
counter; write it incremented; release }. The acquire is the loop of
`ll_spinlock_acquire`, split at its atomic and volatile accesses exactly as
in `ll_spinlock_acquire_step`; the unprotected increment is split into its
read and its write, so that a lost update would be expressible. -/

/-- Thread-local control state of one benchmark thread. The argument `c`
counts the iterations this thread has completed. -/
inductive TState
  | ready (c : Nat) : TState
  | spinning (c : Nat) : TState
  | gotLock (c : Nat) : TState
  | readCtr (c : Nat) (v : Nat) : TState
  | wrote (c : Nat) : TState
deriving DecidableEq

/-- Whether a thread control state is inside the critical section, that is,
between the successful test-and-set and the release. -/
def holdsLock : TState → Bool
  | .gotLock _ => true
  | .readCtr _ _ => true
  | .wrote _ => true
  | _ => false

/-- Number of completed counter increments a thread control state accounts
for (the write of iteration `c + 1` happens on the transition into
`wrote c`). -/
def iterCount : TState → Nat
  | .ready c => c
  | .spinning c => c
  | .gotLock c => c
  | .readCtr c _ => c
  | .wrote c => c + 1

/-- Global state of the benchmark: the shared lock word, the shared counter
and the control state of each of the `n` threads. -/
structure SysState (n : Nat) where
  lock : Int
  counter : Nat
  threads : Fin n → TState

/-- One interleaved step of the benchmark with `n` threads and `M` iterations
per thread. Each constructor is one atomic or volatile access by one thread:
the test-and-set of `ll_spinlock_acquire` (writing 1 and branching on the old
value), the plain read of the inner spin loop, the read and the write of the
counter increment, and the store of `ll_spinlock_release`. -/
inductive SysStep (n M : Nat) : SysState n → SysState n → Prop
  | tas_success (σ : SysState n) (i : Fin n) (c : Nat) :
      σ.threads i = .ready c → c < M → σ.lock = 0 →
      SysStep n M σ ⟨1, σ.counter, Function.update σ.threads i (.gotLock c)⟩
  | tas_fail (σ : SysState n) (i : Fin n) (c : Nat) :
      σ.threads i = .ready c → c < M → σ.lock ≠ 0 →
      SysStep n M σ ⟨1, σ.counter, Function.update σ.threads i (.spinning c)⟩
  | spin_wait (σ : SysState n) (i : Fin n) (c : Nat) :
      σ.threads i = .spinning c → σ.lock = 1 →
      SysStep n M σ σ
  | spin_exit (σ : SysState n) (i : Fin n) (c : Nat) :
      σ.threads i = .spinning c → σ.lock ≠ 1 →
      SysStep n M σ ⟨σ.lock, σ.counter, Function.update σ.threads i (.ready c)⟩
  | read_counter (σ : SysState n) (i : Fin n) (c : Nat) :
      σ.threads i = .gotLock c →
      SysStep n M σ
        ⟨σ.lock, σ.counter, Function.update σ.threads i (.readCtr c σ.counter)⟩
  | write_counter (σ : SysState n) (i : Fin n) (c v : Nat) :
      σ.threads i = .readCtr c v →
      SysStep n M σ ⟨σ.lock, v + 1, Function.update σ.threads i (.wrote c)⟩
  | release (σ : SysState n) (i : Fin n) (c : Nat) :
      σ.threads i = .wrote c →
      SysStep n M σ ⟨0, σ.counter, Function.update σ.threads i (.ready (c + 1))⟩

/-- Initial state of the benchmark: the lock word as left by
`ll_spinlock_init`, counter 0, every thread at its loop head with 0 completed
iterations. -/
def initSys (n : Nat) : SysState n :=
  ⟨ll_spinlock_init, 0, fun _ => .ready 0⟩

/-- States reachable by the interleaved benchmark. -/
inductive SysReach (n M : Nat) : SysState n → Prop
  | init : SysReach n M (initSys n)
  | step (σ σ' : SysState n) :
      SysReach n M σ → SysStep n M σ σ' → SysReach n M σ'

/-- Inductive invariant of the benchmark: the lock word is 0 or 1; any thread
inside the critical section implies the lock word is 1; at most one thread is
inside the critical section; a thread that has read the counter and not yet
written it back read the current value (no intervening write); and the
counter equals the total number of completed increments. -/
def Inv (n : Nat) (σ : SysState n) : Prop :=
  (σ.lock = 0 ∨ σ.lock = 1) ∧
  (∀ i : Fin n, holdsLock (σ.threads i) = true → σ.lock = 1) ∧
  (∀ i j : Fin n, holdsLock (σ.threads i) = true →
     holdsLock (σ.threads j) = true → i = j) ∧
  (∀ (i : Fin n) (c v : Nat), σ.threads i = .readCtr c v → v = σ.counter) ∧
  σ.counter = ∑ i : Fin n, iterCount (σ.threads i)

/-! The spinlock table `ll_spinlock_table_ext<size>`. -/

/-- The padding constant `#define LL_CACHELINE 8`. -/
def LL_CACHELINE : Nat := 8

/-- Model of the C cast `(uint32_t) v` applied to a signed value: the value
reduced modulo 2 ^ 32, as a natural number. -/
def toUInt32 (v : Int) : Nat := (v % (2 ^ 32 : Int)).toNat

/-- The backing array `ll_spinlock_t ll_spinlock_tab[size * LL_CACHELINE]`,
modelled as a map from word offsets to lock word values. Offsets at and above
`size * LL_CACHELINE` are out of bounds; the operations below are proved
never to touch them. -/
def SpinTab := Nat → ll_spinlock_t

/-- The constructor loop of `ll_spinlock_table_ext`, running
`ll_spinlock_init(ll_spinlock_tab + i)` for every `i < k`, starting from the
arbitrary (uninitialized) memory contents `t`. -/
def ctor_loop (t : SpinTab) : Nat → SpinTab
  | 0 => t
  | k + 1 => Function.update (ctor_loop t k) k ll_spinlock_init

/-- Model of the constructor `ll_spinlock_table_ext()`: it unconditionally
runs the loop over all `size * LL_CACHELINE` words. There is no check of any
kind on `size` in the source (only the comment `// Must be a power of 2` on
the template parameter). -/
def ll_spinlock_table_ext_ctor (size : Nat) (t : SpinTab) : SpinTab :=
  ctor_loop t (size * LL_CACHELINE)

/-- The index computation shared by `acquire_for` and `release_for`:
`uint32_t entry_idx = (uint32_t)(x & (size - 1));`. The key `x` is any
signed integer value; the C bitwise and on two's complement values is
`Int.land`. -/
def entry_idx (size : Nat) (x : Int) : Nat :=
  toUInt32 (Int.land x ((size : Int) - 1))

/-- The word offset `uint32_t tab_idx = entry_idx * LL_CACHELINE;`,
computed in `uint32_t` arithmetic. -/
def tab_idx (size : Nat) (x : Int) : Nat :=
  entry_idx size x * LL_CACHELINE % 2 ^ 32

/-- Effect on the backing array of a completed
`acquire_for(x)` = `ll_spinlock_acquire(&ll_spinlock_tab[tab_idx])`: the
acquire returns only after its test-and-set wrote 1 into that word (theorem
`C3_acquire_ttas` below), so the completed call stores 1 at offset
`tab_idx size x` and touches nothing else. -/
def acquire_for (size : Nat) (t : SpinTab) (x : Int) : SpinTab :=
  Function.update t (tab_idx size x) 1

/-- One step of an in-flight `acquire_for(x)`: a step of
`ll_spinlock_acquire` on the word at offset `tab_idx size x`, every other
word untouched. -/
inductive acquire_for_step (size : Nat) (x : Int) :
    AcquirePhase × SpinTab → AcquirePhase × SpinTab → Prop
  | lift (p p' : AcquirePhase) (t : SpinTab) (v' : Int) :
      ll_spinlock_acquire_step (p, t (tab_idx size x)) (p', v') →
      acquire_for_step size x (p, t) (p', Function.update t (tab_idx size x) v')

/-- Model of `release_for(x)`: recomputes the same index and calls
`ll_spinlock_release(&ll_spinlock_tab[tab_idx])`. -/
def release_for (size : Nat) (t : SpinTab) (x : Int) : SpinTab :=
  Function.update t (tab_idx size x) (ll_spinlock_release (t (tab_idx size x)))

end LlamaLock

namespace LlamaLock

/-! Helper lemmas. -/

/-- Bitwise difference against a low-bit mask, on naturals:
`(2 ^ k - 1) AND (NOT m)` keeps exactly the complement of the low `k` bits
of `m`. -/
theorem ldiff_two_pow_sub_one (k : Nat) :
    ∀ m : Nat, Nat.ldiff (2 ^ k - 1) m = 2 ^ k - 1 - m % 2 ^ k := by
  induction k with
  | zero => intro m; simp [Nat.ldiff, Nat.bitwise]
  | succ k ih =>
    intro m
    induction m using Nat.bitCasesOn with
    | h b m' =>
      have h1 : 1 ≤ 2 ^ k := Nat.one_le_two_pow
      have hp : 2 ^ (k + 1) = 2 * 2 ^ k := by rw [pow_succ]; ring
      have hbit : 2 ^ (k + 1) - 1 = Nat.bit true (2 ^ k - 1) := by
        rw [Nat.bit_val, hp]; simp; omega
      have hd : 2 ^ k * (m' / 2 ^ k) + m' % 2 ^ k = m' := Nat.div_add_mod m' (2 ^ k)
      have hlt : m' % 2 ^ k < 2 ^ k := Nat.mod_lt _ (by positivity)
      have hmod : Nat.bit b m' % 2 ^ (k + 1) = 2 * (m' % 2 ^ k) + b.toNat := by
        have hb2 : Nat.bit b m' =
            (2 * (m' % 2 ^ k) + b.toNat) + 2 ^ (k + 1) * (m' / 2 ^ k) := by
          rw [Nat.bit_val, hp]
          calc 2 * m' + b.toNat
              = 2 * (2 ^ k * (m' / 2 ^ k) + m' % 2 ^ k) + b.toNat := by rw [hd]
            _ = 2 * (m' % 2 ^ k) + b.toNat + 2 * 2 ^ k * (m' / 2 ^ k) := by ring
        rw [hb2, Nat.add_mul_mod_self_left,
          Nat.mod_eq_of_lt (by rw [hp]; cases b <;> simp <;> omega)]
      rw [hmod]
      conv_lhs => rw [hbit]
      rw [Nat.ldiff_bit, ih, Nat.bit_val, hp]
      cases b <;> simp <;> omega

/-- The key identity behind the power-of-two indexing scheme: bitwise and
with the mask `2 ^ k - 1` is reduction modulo `2 ^ k`, for every integer,
negative values included. -/
theorem int_land_two_pow_sub_one (x : Int) (k : Nat) :
    Int.land x ((2 : Int) ^ k - 1) = x % (2 : Int) ^ k := by
  have h1 : 1 ≤ 2 ^ k := Nat.one_le_two_pow
  have hcast : (((2 ^ k - 1 : Nat)) : Int) = (2 : Int) ^ k - 1 := by
    push_cast [h1]; ring
  have hP : ((2 ^ k : Nat) : Int) = (2 : Int) ^ k := by push_cast; rfl
  cases x with
  | ofNat n =>
    rw [← hcast]
    show ((n &&& (2 ^ k - 1) : Nat) : Int) = _
    rw [Nat.and_pow_two_sub_one_eq_mod]
    push_cast
    rfl
  | negSucc m =>
    have hL : Int.land (Int.negSucc m) ((2 : Int) ^ k - 1)
        = ((Nat.ldiff (2 ^ k - 1) m : Nat) : Int) := by
      rw [← hcast]; rfl
    rw [hL, ldiff_two_pow_sub_one]
    have hd : 2 ^ k * (m / 2 ^ k) + m % 2 ^ k = m := Nat.div_add_mod m (2 ^ k)
    have hr : m % 2 ^ k < 2 ^ k := Nat.mod_lt _ (by positivity)
    have hrz : ((m % 2 ^ k : Nat) : Int) < ((2 ^ k : Nat) : Int) := by exact_mod_cast hr
    have hmcast : ((m : Nat) : Int)
        = (2 : Int) ^ k * ((m / 2 ^ k : Nat) : Int) + ((m % 2 ^ k : Nat) : Int) := by
      rw [← hP]; exact_mod_cast hd.symm
    have hm : Int.negSucc m
        = ((2 : Int) ^ k - 1 - ((m % 2 ^ k : Nat) : Int))
          + (2 : Int) ^ k * (-((m / 2 ^ k : Nat) : Int) - 1) := by
      rw [Int.negSucc_eq, hmcast]; ring
    rw [hm, Int.add_mul_emod_self_left,
      Int.emod_eq_of_lt (by omega) (by omega)]
    omega

end LlamaLock

namespace LlamaLock

/-- C2: `ll_spinlock_try_acquire` performs a single atomic exchange that
stores 1 (held) and reports success exactly when the previous value was 0
(free); it is a total function (it never loops). Moreover the single-threaded
scenario holds: after `init` a first `try_acquire` returns true, a second one
returns false, and after `release` a further `try_acquire` returns true. -/
theorem C2_try_acquire :
    (∀ s : ll_spinlock_t,
      ((ll_spinlock_try_acquire s).1 = true ↔ s = 0) ∧
      (ll_spinlock_try_acquire s).2 = 1) ∧
    ((ll_spinlock_try_acquire ll_spinlock_init).1 = true ∧
     (ll_spinlock_try_acquire
        (ll_spinlock_try_acquire ll_spinlock_init).2).1 = false ∧
     (ll_spinlock_try_acquire
        (ll_spinlock_release
          (ll_spinlock_try_acquire
            (ll_spinlock_try_acquire ll_spinlock_init).2).2)).1 = true) := by
  refine ⟨fun s => ⟨?_, rfl⟩, by decide⟩
  simp [ll_spinlock_try_acquire]

/-- C4: `ll_spinlock_release` resets the lock word to 0 (free) from every
state, held or not; it takes no thread identity and performs no ownership
check, so the postcondition is unconditional. The `__sync_synchronize()`
fence preceding the store has no effect on the lock word value and is
modelled as the identity on state. -/
theorem C4_release (s : ll_spinlock_t) : ll_spinlock_release s = 0 := rfl

/-- C3: the body of `ll_spinlock_acquire` is test-and-test-and-set. The three
conjuncts state: (1) the function returns only from the head of the outer
loop, via an atomic test-and-set that found the lock free and left it held by
the caller, that is, via a step whose effect and result are exactly a
successful `ll_spinlock_try_acquire`; (2) every outer-loop step has exactly
the effect of `ll_spinlock_try_acquire` (store 1, branch on the old value)
and exits the loop exactly on success, otherwise entering the inner loop;
(3) every inner-loop step is a plain read: it never writes the lock word and
never returns from the function, re-checking until it observes a value other
than 1 (held). -/
theorem C3_acquire_ttas :
    (∀ (p : AcquirePhase) (s s' : Int),
       ll_spinlock_acquire_step (p, s) (.finished, s') →
       p = .tas ∧ (ll_spinlock_try_acquire s).1 = true ∧
         s' = (ll_spinlock_try_acquire s).2 ∧ s' = 1) ∧
    (∀ (s : Int) (out : AcquirePhase × Int),
       ll_spinlock_acquire_step (.tas, s) out →
       out.2 = (ll_spinlock_try_acquire s).2 ∧
         (out.1 = .finished ↔ (ll_spinlock_try_acquire s).1 = true)) ∧
    (∀ (s : Int) (out : AcquirePhase × Int),
       ll_spinlock_acquire_step (.spin, s) out →
       out.2 = s ∧ out.1 ≠ .finished) := by
  refine ⟨?_, ?_, ?_⟩
  · intro p s s' h
    cases h with
    | tas_success s hs => subst hs; simp [ll_spinlock_try_acquire]
  · intro s out h
    cases h with
    | tas_success s hs => subst hs; simp [ll_spinlock_try_acquire]
    | tas_fail s hs => simp [ll_spinlock_try_acquire, hs]
  · intro s out h
    cases h with
    | spin_wait s hs => simp
    | spin_exit s hs => simp

/-- Witness for C3: the concrete transition of `ll_spinlock_acquire` from the
outer loop head on a free lock, instantiating the first conjunct. -/
theorem C3_witness :
    AcquirePhase.tas = AcquirePhase.tas ∧
    (ll_spinlock_try_acquire 0).1 = true ∧
    (1 : Int) = (ll_spinlock_try_acquire 0).2 ∧ (1 : Int) = 1 :=
  C3_acquire_ttas.1 .tas 0 1 (ll_spinlock_acquire_step.tas_success 0 rfl)

/-- C5: per-lock state-machine invariant. Conjunct (1): every lock word value
reachable from `ll_spinlock_init` under the operations of the header is 0
(free) or 1 (held). Conjunct (2): on such values, `ll_spinlock_try_acquire`
changes the value only as the transition free to held, and exactly when it
returns true; `ll_spinlock_release` changes it only as held to free.
Conjunct (3): a step of `ll_spinlock_acquire` either leaves the word
unchanged (inner-loop read) or writes held, and completes the acquire only
from free; so the only value-changing transitions are free to held on a
successful test-and-set and held to free on release. -/
theorem C5_state_machine :
    (∀ s : Int, LockReach s → s = 0 ∨ s = 1) ∧
    (∀ s : Int, s = 0 ∨ s = 1 →
      ((ll_spinlock_try_acquire s).2 ≠ s →
        s = 0 ∧ (ll_spinlock_try_acquire s).2 = 1 ∧
          (ll_spinlock_try_acquire s).1 = true) ∧
      (ll_spinlock_release s ≠ s → s = 1 ∧ ll_spinlock_release s = 0)) ∧
    (∀ (p p' : AcquirePhase) (s s' : Int),
      ll_spinlock_acquire_step (p, s) (p', s') →
      s' = s ∨ (s' = 1 ∧ (p' = .finished → s = 0))) := by
  refine ⟨?_, ?_, ?_⟩
  · intro s h
    induction h with
    | init => left; rfl
    | try_acq s _ _ => right; rfl
    | release s _ _ => left; rfl
    | acq p p' s s' _ hstep ih =>
      cases hstep with
      | tas_success s hs => right; rfl
      | tas_fail s hs => right; rfl
      | spin_wait s hs => exact ih
      | spin_exit s hs => exact ih
  · intro s hs
    constructor
    · intro hne
      rcases hs with h0 | h1
      · subst h0; exact ⟨rfl, rfl, rfl⟩
      · subst h1; simp [ll_spinlock_try_acquire] at hne
    · intro hne
      rcases hs with h0 | h1
      · subst h0; simp [ll_spinlock_release] at hne
      · subst h1; exact ⟨rfl, rfl⟩
  · intro p p' s s' hstep
    cases hstep with
    | tas_success s hs => right; exact ⟨rfl, fun _ => hs⟩
    | tas_fail s hs => right; exact ⟨rfl, by simp⟩
    | spin_wait s hs => left; rfl
    | spin_exit s hs => left; rfl

/-- Witness for C5: the initial lock word is reachable and is free. -/
theorem C5_witness : (0 : Int) = 0 ∨ (0 : Int) = 1 :=
  C5_state_machine.1 0 LockReach.init

/-- Evaluation of the index computation at a power-of-two capacity: the mask
`size - 1` keeps exactly the key reduced modulo the capacity (then cast to
`uint32_t`). -/
theorem entry_idx_eq (k : Nat) (x : Int) :
    entry_idx (2 ^ k) x = ((x % (2 : Int) ^ k) % 2 ^ 32).toNat := by
  unfold entry_idx toUInt32
  congr 1
  have hcast : (((2 ^ k : Nat) : Int) - 1) = (2 : Int) ^ k - 1 := by push_cast; ring
  rw [hcast, int_land_two_pow_sub_one]

/-- For capacities up to 2 ^ 32 the `uint32_t` cast in the index computation
is the identity, and the entry index is the key modulo the capacity. -/
theorem entry_idx_eq_of_le (k : Nat) (hk : k ≤ 32) (x : Int) :
    (entry_idx (2 ^ k) x : Int) = x % (2 : Int) ^ k := by
  rw [entry_idx_eq]
  have h2 : (0 : Int) < 2 ^ k := by positivity
  have hx : 0 ≤ x % (2 : Int) ^ k := Int.emod_nonneg x (ne_of_gt h2)
  have hlt : x % (2 : Int) ^ k < 2 ^ k := Int.emod_lt_of_pos x h2
  have hle : (2 : Int) ^ k ≤ 2 ^ 32 := pow_le_pow_right₀ (by norm_num) hk
  rw [Int.emod_eq_of_lt hx (lt_of_lt_of_le hlt hle)]
  omega

/-- The entry index is always below a power-of-two capacity of at most
2 ^ 32 slots, for every integer key. -/
theorem entry_idx_lt (k : Nat) (hk : k ≤ 32) (x : Int) :
    entry_idx (2 ^ k) x < 2 ^ k := by
  have h := entry_idx_eq_of_le k hk x
  have h2 : (0 : Int) < 2 ^ k := by positivity
  have hlt : x % (2 : Int) ^ k < 2 ^ k := Int.emod_lt_of_pos x h2
  have hPk : (((2 : Nat) ^ k : Nat) : Int) = (2 : Int) ^ k := by push_cast; rfl
  omega

/-- For capacities up to 2 ^ 28 slots the `uint32_t` multiplication by
`LL_CACHELINE` cannot wrap, so the word offset is the entry index times the
stride. -/
theorem tab_idx_eq (k : Nat) (hk : k ≤ 28) (x : Int) :
    tab_idx (2 ^ k) x = entry_idx (2 ^ k) x * LL_CACHELINE := by
  unfold tab_idx
  have hlt : entry_idx (2 ^ k) x < 2 ^ k := entry_idx_lt k (by omega) x
  have hle : (2 : Nat) ^ k ≤ 2 ^ 28 := Nat.pow_le_pow_right (by norm_num) hk
  have hbound : (2 : Nat) ^ 28 * 8 < 2 ^ 32 := by norm_num
  have : entry_idx (2 ^ k) x * LL_CACHELINE < 2 ^ 32 := by
    unfold LL_CACHELINE
    calc entry_idx (2 ^ k) x * 8 < 2 ^ k * 8 := by omega
      _ ≤ 2 ^ 28 * 8 := by omega
      _ < 2 ^ 32 := hbound
  exact Nat.mod_eq_of_lt this

/-- The constructor loop stores 0 (the free lock word) at every offset below
its bound. -/
theorem ctor_loop_eval (t : SpinTab) :
    ∀ m i : Nat, i < m → ctor_loop t m i = 0 := by
  intro m
  induction m with
  | zero => intro i h; omega
  | succ m ih =>
    intro i h
    show Function.update (ctor_loop t m) m ll_spinlock_init i = 0
    rcases Nat.lt_succ_iff_lt_or_eq.mp h with h' | h'
    · rw [Function.update_noteq (by omega)]
      exact ih i h'
    · subst h'
      rw [Function.update_same]
      rfl

/-- C6: `acquire_for` and `release_for` derive the slot from the key by the
same pure function: `entry_idx` is by definition
`(uint32_t)(x & (size - 1))` of the key alone (conjunct 2) and both
operations address the word at offset `tab_idx = entry_idx * LL_CACHELINE`
computed from it (conjunct 1); `acquire_for` leaves exactly that word held
(conjunct 3), `release_for` leaves exactly that word free (conjunct 4), and
neither touches any other word (conjunct 5). Two runs on the same key thus
always address the same slot. -/
theorem C6_same_index (size : Nat) (x : Int) (t u : SpinTab) :
    tab_idx size x = entry_idx size x * LL_CACHELINE % 2 ^ 32 ∧
    entry_idx size x = toUInt32 (Int.land x ((size : Int) - 1)) ∧
    acquire_for size t x (tab_idx size x) = 1 ∧
    release_for size u x (tab_idx size x) = 0 ∧
    (∀ i, i ≠ tab_idx size x →
       acquire_for size t x i = t i ∧ release_for size u x i = u i) := by
  refine ⟨rfl, rfl, ?_, ?_, ?_⟩
  · unfold acquire_for
    rw [Function.update_same]
  · unfold release_for
    rw [Function.update_same]
    rfl
  · intro i hi
    unfold acquire_for release_for
    rw [Function.update_noteq hi, Function.update_noteq hi]
    exact ⟨rfl, rfl⟩

/-- Witness for C6 at capacity 1024 and key 5: offset 0 is not the slot of
key 5, so both operations leave it unchanged. -/
theorem C6_witness :
    acquire_for (2 ^ 10) (fun _ => 0) 5 0 = 0 ∧
    release_for (2 ^ 10) (fun _ => 0) 5 0 = 0 :=
  (C6_same_index (2 ^ 10) 5 (fun _ => 0) (fun _ => 0)).2.2.2.2 0 (by decide)

/-- C7: keys congruent modulo a power-of-two capacity select the same slot;
in particular key and key + capacity always do, so they contend for the same
lock word. -/
theorem C7_aliasing (k : Nat) (x y : Int) :
    entry_idx (2 ^ k) (x + ((2 ^ k : Nat) : Int)) = entry_idx (2 ^ k) x ∧
    (x % ((2 ^ k : Nat) : Int) = y % ((2 ^ k : Nat) : Int) →
      entry_idx (2 ^ k) x = entry_idx (2 ^ k) y ∧
      tab_idx (2 ^ k) x = tab_idx (2 ^ k) y) := by
  have hcast : (((2 ^ k : Nat) : Nat) : Int) = (2 : Int) ^ k := by push_cast; rfl
  constructor
  · rw [entry_idx_eq, entry_idx_eq, hcast]
    congr 2
    have : x + (2 : Int) ^ k = x + (2 : Int) ^ k * 1 := by ring
    rw [this, Int.add_mul_emod_self_left]
  · intro hxy
    rw [hcast] at hxy
    have he : entry_idx (2 ^ k) x = entry_idx (2 ^ k) y := by
      rw [entry_idx_eq, entry_idx_eq, hxy]
    exact ⟨he, by unfold tab_idx; rw [he]⟩

/-- Witness for C7: at capacity 1024, the keys 7 and -1017 are congruent
modulo 1024 and map to the same slot. -/
theorem C7_witness :
    entry_idx (2 ^ 10) 7 = entry_idx (2 ^ 10) (-1017) ∧
    tab_idx (2 ^ 10) 7 = tab_idx (2 ^ 10) (-1017) :=
  (C7_aliasing 10 7 (-1017)).2 (by decide)

/-- C10: bounds safety at a power-of-two capacity (at most 2 ^ 28, so that
the `int`-typed array length and the `uint32_t` offset arithmetic are
faithful). For every integer key, negative values included: the masked value
is nonnegative, the entry index is below the capacity, the word offset is
exactly `entry_idx * LL_CACHELINE` and lies strictly inside the backing
array of `capacity * LL_CACHELINE` words; and the constructor initializes
every one of those words (padding included) to the free state. -/
theorem C10_bounds (k : Nat) (x : Int) (t : SpinTab) (hk : k ≤ 28) :
    0 ≤ Int.land x (((2 ^ k : Nat) : Int) - 1) ∧
    entry_idx (2 ^ k) x < 2 ^ k ∧
    tab_idx (2 ^ k) x = entry_idx (2 ^ k) x * LL_CACHELINE ∧
    tab_idx (2 ^ k) x < 2 ^ k * LL_CACHELINE ∧
    (∀ i, i < 2 ^ k * LL_CACHELINE → ll_spinlock_table_ext_ctor (2 ^ k) t i = 0) := by
  have hmask : (((2 ^ k : Nat) : Int) - 1) = (2 : Int) ^ k - 1 := by push_cast; ring
  have h2 : (0 : Int) < 2 ^ k := by positivity
  have hlt : entry_idx (2 ^ k) x < 2 ^ k := entry_idx_lt k (by omega) x
  have htab : tab_idx (2 ^ k) x = entry_idx (2 ^ k) x * LL_CACHELINE := tab_idx_eq k hk x
  refine ⟨?_, hlt, htab, ?_, ?_⟩
  · rw [hmask, int_land_two_pow_sub_one]
    exact Int.emod_nonneg x (ne_of_gt h2)
  · rw [htab]
    have h8 : 0 < LL_CACHELINE := by norm_num [LL_CACHELINE]
    exact (Nat.mul_lt_mul_right h8).mpr hlt
  · intro i hi
    exact ctor_loop_eval t _ i hi

/-- Witness for C10 at the default capacity 1024 and the negative key -7. -/
theorem C10_witness :
    0 ≤ Int.land (-7) (((2 ^ 10 : Nat) : Int) - 1) ∧
    entry_idx (2 ^ 10) (-7) < 2 ^ 10 ∧
    tab_idx (2 ^ 10) (-7) = entry_idx (2 ^ 10) (-7) * LL_CACHELINE ∧
    tab_idx (2 ^ 10) (-7) < 2 ^ 10 * LL_CACHELINE ∧
    (∀ i, i < 2 ^ 10 * LL_CACHELINE →
       ll_spinlock_table_ext_ctor (2 ^ 10) (fun _ => 99) i = 0) :=
  C10_bounds 10 (-7) (fun _ => 99) (by norm_num)

/-- Counterexample to C8: the source contains no power-of-two check at all
(the template parameter only carries the comment `// Must be a power of 2`).
At the non-power-of-two capacity 3, construction proceeds normally and
initializes every word of the backing array, and the mask `size - 1 = 2` is
incorrect: the keys 0 and 0 + 3, although congruent modulo the capacity, land
in different slots. -/
theorem C8_counterexample :
    (¬ ∃ k : Nat, 3 = 2 ^ k) ∧
    (∀ i, i < 3 * LL_CACHELINE →
       ll_spinlock_table_ext_ctor 3 (fun _ => 7) i = 0) ∧
    entry_idx 3 3 ≠ entry_idx 3 0 := by
  refine ⟨?_, ?_, by decide⟩
  · rintro ⟨k, hk⟩
    match k, hk with
    | 0, hk => exact absurd hk (by decide)
    | 1, hk => exact absurd hk (by decide)
    | k + 2, hk =>
      have h4 : 4 ≤ 2 ^ (k + 2) := by
        calc 4 = 2 ^ 2 := rfl
          _ ≤ 2 ^ (k + 2) := Nat.pow_le_pow_right (by norm_num) (by omega)
      omega
  · intro i hi
    exact ctor_loop_eval (fun _ => 7) _ i hi

/-- C8 as amended: the code does not enforce the documented power-of-two
requirement. For every capacity, power of two or not, construction silently
proceeds, initializing the whole backing array with no failure path, and the
index computation always applies the mask `capacity - 1` to the key. -/
theorem C8_amended (size : Nat) (t : SpinTab) :
    (∀ i, i < size * LL_CACHELINE → ll_spinlock_table_ext_ctor size t i = 0) ∧
    (∀ x : Int, entry_idx size x = toUInt32 (Int.land x ((size : Int) - 1))) :=
  ⟨fun i hi => ctor_loop_eval t _ i hi, fun _ => rfl⟩

/-- Witness for C8 as amended: construction at the non-power-of-two capacity
3 proceeds and initializes offset 0. -/
theorem C8_witness : ll_spinlock_table_ext_ctor 3 (fun _ => 7) 0 = 0 :=
  (C8_amended 3 (fun _ => 7)).1 0 (by norm_num [LL_CACHELINE])

/-- C9: padded layout and frame. At a power-of-two capacity (at most 2 ^ 28):
slots sit at a fixed stride of `LL_CACHELINE` lock words (conjunct 1);
distinct slot numbers occupy disjoint padded regions of the backing array
(conjunct 2); a completed `acquire_for` and a `release_for` on key `x` leave
every word other than the one at offset `tab_idx` unchanged (conjunct 3);
and every in-flight step of `acquire_for` reads and writes only that word
(conjunct 4). -/
theorem C9_padding_frame (k : Nat) (x : Int) (t : SpinTab) (hk : k ≤ 28) :
    tab_idx (2 ^ k) x = entry_idx (2 ^ k) x * LL_CACHELINE ∧
    (∀ j j' a b : Nat, j ≠ j' → a < LL_CACHELINE → b < LL_CACHELINE →
       j * LL_CACHELINE + a ≠ j' * LL_CACHELINE + b) ∧
    (∀ i, i ≠ tab_idx (2 ^ k) x →
       acquire_for (2 ^ k) t x i = t i ∧ release_for (2 ^ k) t x i = t i) ∧
    (∀ st st' : AcquirePhase × SpinTab, acquire_for_step (2 ^ k) x st st' →
       ∀ i, i ≠ tab_idx (2 ^ k) x → st'.2 i = st.2 i) := by
  refine ⟨tab_idx_eq k hk x, ?_, ?_, ?_⟩
  · intro j j' a b hjj ha hb
    unfold LL_CACHELINE at *
    omega
  · intro i hi
    unfold acquire_for release_for
    rw [Function.update_noteq hi, Function.update_noteq hi]
    exact ⟨rfl, rfl⟩
  · intro st st' hstep i hi
    cases hstep with
    | lift p p' u v' h =>
      exact Function.update_noteq hi _ _

/-- Witness for C9 at capacity 1024 and key 3: offsets 0 and 9 lie in the
regions of slots 0 and 1 and differ, and offset 0 is untouched by the
operations on key 3. -/
theorem C9_witness :
    (0 * LL_CACHELINE + 0 ≠ 1 * LL_CACHELINE + 1) ∧
    (acquire_for (2 ^ 10) (fun _ => 0) 3 0 = 0 ∧
     release_for (2 ^ 10) (fun _ => 0) 3 0 = 0) :=
  ⟨(C9_padding_frame 10 3 (fun _ => 0) (by norm_num)).2.1 0 1 0 1
      (by decide) (by decide) (by decide),
   (C9_padding_frame 10 3 (fun _ => 0) (by norm_num)).2.2.1 0 (by decide)⟩

/-- Replacing the control state of one thread changes the completed-increment
total by the difference of the two accounts. -/
theorem sum_update_add (n : Nat) (f : Fin n → TState) (i : Fin n) (a : TState) :
    (∑ j : Fin n, iterCount (Function.update f i a j)) + iterCount (f i)
      = (∑ j : Fin n, iterCount (f j)) + iterCount a := by
  have hpt : ∀ j : Fin n, iterCount (Function.update f i a j)
      = Function.update (fun j => iterCount (f j)) i (iterCount a) j := by
    intro j
    by_cases hj : j = i
    · subst hj; rw [Function.update_same, Function.update_same]
    · rw [Function.update_noteq hj, Function.update_noteq hj]
  rw [Finset.sum_congr rfl (fun j _ => hpt j),
    Finset.sum_update_of_mem (Finset.mem_univ i), ← Finset.erase_eq,
    ← Finset.add_sum_erase _ (fun j => iterCount (f j)) (Finset.mem_univ i)]
  ring

/-- Replacing the control state of one thread by one with the same
critical-section status does not change any critical-section status. -/
theorem holds_update_iff (n : Nat) (f : Fin n → TState) (i : Fin n) (a : TState)
    (ha : holdsLock a = holdsLock (f i)) :
    ∀ j, holdsLock (Function.update f i a j) = holdsLock (f j) := by
  intro j
  by_cases hj : j = i
  · subst hj; rw [Function.update_same, ha]
  · rw [Function.update_noteq hj]

/-- The invariant holds in the initial state. -/
theorem inv_init (n : Nat) : Inv n (initSys n) := by
  refine ⟨Or.inl rfl, ?_, ?_, ?_, ?_⟩
  · intro i hi
    simp [initSys, holdsLock] at hi
  · intro i j hi hj
    simp [initSys, holdsLock] at hi
  · intro i c v h
    simp [initSys] at h
  · simp [initSys, iterCount]

/-- The invariant is preserved by every interleaved step. -/
theorem inv_step (n M : Nat) (σ σ' : SysState n) (hinv : Inv n σ)
    (hstep : SysStep n M σ σ') : Inv n σ' := by
  obtain ⟨h01, hLock, hMutex, hRead, hSum⟩ := hinv
  cases hstep with
  | tas_success i c hti hcM hl0 =>
    refine ⟨Or.inr rfl, fun j _ => rfl, ?_, ?_, ?_⟩
    · intro j j' hj hj'
      dsimp only at hj hj'
      by_cases hji : j = i
      · by_cases hj'i : j' = i
        · rw [hji, hj'i]
        · rw [Function.update_noteq hj'i] at hj'
          have h1 := hLock j' hj'
          rw [hl0] at h1
          exact absurd h1 (by norm_num)
      · rw [Function.update_noteq hji] at hj
        have h1 := hLock j hj
        rw [hl0] at h1
        exact absurd h1 (by norm_num)
    · intro j c' v' hj
      dsimp only at hj ⊢
      by_cases hji : j = i
      · subst hji
        rw [Function.update_same] at hj
        exact absurd hj (by simp)
      · rw [Function.update_noteq hji] at hj
        have hh : holdsLock (σ.threads j) = true := by rw [hj]; rfl
        have h1 := hLock j hh
        rw [hl0] at h1
        exact absurd h1 (by norm_num)
    · show σ.counter = ∑ j : Fin n, iterCount (Function.update σ.threads i (TState.gotLock c) j)
      have hadd := sum_update_add n σ.threads i (TState.gotLock c)
      rw [hti] at hadd
      have hadd2 : (∑ j : Fin n, iterCount (Function.update σ.threads i (TState.gotLock c) j)) + (c)
          = (∑ j : Fin n, iterCount (σ.threads j)) + (c) := hadd
      omega
  | tas_fail i c hti hcM hlne =>
    have hl1 : σ.lock = 1 := h01.resolve_left hlne
    have hup := holds_update_iff n σ.threads i (TState.spinning c) (by simp [hti, holdsLock])
    refine ⟨Or.inr rfl, fun j _ => rfl, ?_, ?_, ?_⟩
    · intro j j' hj hj'
      dsimp only at hj hj'
      rw [hup] at hj
      rw [hup] at hj'
      exact hMutex j j' hj hj'
    · intro j c' v' hj
      dsimp only at hj ⊢
      by_cases hji : j = i
      · subst hji
        rw [Function.update_same] at hj
        exact absurd hj (by simp)
      · rw [Function.update_noteq hji] at hj
        exact hRead j c' v' hj
    · show σ.counter = ∑ j : Fin n, iterCount (Function.update σ.threads i (TState.spinning c) j)
      have hadd := sum_update_add n σ.threads i (TState.spinning c)
      rw [hti] at hadd
      have hadd2 : (∑ j : Fin n, iterCount (Function.update σ.threads i (TState.spinning c) j)) + (c)
          = (∑ j : Fin n, iterCount (σ.threads j)) + (c) := hadd
      omega
  | spin_wait i c hti hl1 =>
    exact ⟨h01, hLock, hMutex, hRead, hSum⟩
  | spin_exit i c hti hlne =>
    have hup := holds_update_iff n σ.threads i (TState.ready c) (by simp [hti, holdsLock])
    refine ⟨h01, ?_, ?_, ?_, ?_⟩
    · intro j hj
      dsimp only at hj ⊢
      rw [hup] at hj
      exact hLock j hj
    · intro j j' hj hj'
      dsimp only at hj hj'
      rw [hup] at hj
      rw [hup] at hj'
      exact hMutex j j' hj hj'
    · intro j c' v' hj
      dsimp only at hj ⊢
      by_cases hji : j = i
      · subst hji
        rw [Function.update_same] at hj
        exact absurd hj (by simp)
      · rw [Function.update_noteq hji] at hj
        exact hRead j c' v' hj
    · show σ.counter = ∑ j : Fin n, iterCount (Function.update σ.threads i (TState.ready c) j)
      have hadd := sum_update_add n σ.threads i (TState.ready c)
      rw [hti] at hadd
      have hadd2 : (∑ j : Fin n, iterCount (Function.update σ.threads i (TState.ready c) j)) + (c)
          = (∑ j : Fin n, iterCount (σ.threads j)) + (c) := hadd
      omega
  | read_counter i c hti =>
    have hup := holds_update_iff n σ.threads i (TState.readCtr c σ.counter) (by simp [hti, holdsLock])
    refine ⟨h01, ?_, ?_, ?_, ?_⟩
    · intro j hj
      dsimp only at hj ⊢
      rw [hup] at hj
      exact hLock j hj
    · intro j j' hj hj'
      dsimp only at hj hj'
      rw [hup] at hj
      rw [hup] at hj'
      exact hMutex j j' hj hj'
    · intro j c' v' hj
      dsimp only at hj ⊢
      by_cases hji : j = i
      · subst hji
        rw [Function.update_same] at hj
        injection hj with h1 h2
        exact h2.symm
      · rw [Function.update_noteq hji] at hj
        exact hRead j c' v' hj
    · show σ.counter = ∑ j : Fin n, iterCount (Function.update σ.threads i (TState.readCtr c σ.counter) j)
      have hadd := sum_update_add n σ.threads i (TState.readCtr c σ.counter)
      rw [hti] at hadd
      have hadd2 : (∑ j : Fin n, iterCount (Function.update σ.threads i (TState.readCtr c σ.counter) j)) + (c)
          = (∑ j : Fin n, iterCount (σ.threads j)) + (c) := hadd
      omega
  | write_counter i c v hti =>
    have hup := holds_update_iff n σ.threads i (TState.wrote c) (by simp [hti, holdsLock])
    have hv : v = σ.counter := hRead i c v hti
    refine ⟨h01, ?_, ?_, ?_, ?_⟩
    · intro j hj
      dsimp only at hj ⊢
      rw [hup] at hj
      exact hLock j hj
    · intro j j' hj hj'
      dsimp only at hj hj'
      rw [hup] at hj
      rw [hup] at hj'
      exact hMutex j j' hj hj'
    · intro j c' v' hj
      dsimp only at hj ⊢
      by_cases hji : j = i
      · subst hji
        rw [Function.update_same] at hj
        exact absurd hj (by simp)
      · rw [Function.update_noteq hji] at hj
        have hhj : holdsLock (σ.threads j) = true := by rw [hj]; rfl
        have hhi : holdsLock (σ.threads i) = true := by rw [hti]; rfl
        exact absurd (hMutex j i hhj hhi) hji
    · show v + 1 = ∑ j : Fin n, iterCount (Function.update σ.threads i (TState.wrote c) j)
      have hadd := sum_update_add n σ.threads i (TState.wrote c)
      rw [hti] at hadd
      have hadd2 : (∑ j : Fin n, iterCount (Function.update σ.threads i (TState.wrote c) j)) + (c)
          = (∑ j : Fin n, iterCount (σ.threads j)) + (c + 1) := hadd
      omega
  | release i c hti =>
    have hnone : ∀ j : Fin n,
        holdsLock (Function.update σ.threads i (TState.ready (c + 1)) j) = true → False := by
      intro j hj
      by_cases hji : j = i
      · subst hji
        rw [Function.update_same] at hj
        exact absurd hj (by simp [holdsLock])
      · rw [Function.update_noteq hji] at hj
        have hhi : holdsLock (σ.threads i) = true := by rw [hti]; rfl
        exact hji (hMutex j i hj hhi)
    refine ⟨Or.inl rfl, ?_, ?_, ?_, ?_⟩
    · intro j hj
      dsimp only at hj
      exact absurd hj (fun h => hnone j h)
    · intro j j' hj hj'
      dsimp only at hj hj'
      exact absurd hj (fun h => hnone j h)
    · intro j c' v' hj
      dsimp only at hj ⊢
      by_cases hji : j = i
      · subst hji
        rw [Function.update_same] at hj
        exact absurd hj (by simp)
      · rw [Function.update_noteq hji] at hj
        have hhj : holdsLock (σ.threads j) = true := by rw [hj]; rfl
        exact absurd hhj (fun h => hnone j (by rw [Function.update_noteq hji]; exact h))
    · show σ.counter = ∑ j : Fin n, iterCount (Function.update σ.threads i (TState.ready (c + 1)) j)
      have hadd := sum_update_add n σ.threads i (TState.ready (c + 1))
      rw [hti] at hadd
      have hadd2 : (∑ j : Fin n, iterCount (Function.update σ.threads i (TState.ready (c + 1)) j)) + (c + 1)
          = (∑ j : Fin n, iterCount (σ.threads j)) + (c + 1) := hadd
      omega

/-- The invariant holds in every reachable state. -/
theorem inv_reach (n M : Nat) (σ : SysState n) (h : SysReach n M σ) : Inv n σ := by
  induction h with
  | init => exact inv_init n
  | step σ σ' hr hs ih => exact inv_step n M σ σ' ih hs

/-- C1: mutual exclusion and no lost updates. In every reachable state of the
interleaved benchmark (N threads, each doing M iterations of acquire via the
test-and-test-and-set loop, split counter increment, release, all on the
same lock word), at most one thread is between its successful test-and-set
and its release; and whenever every thread has completed its M iterations,
the shared counter equals N * M. -/
theorem C1_mutual_exclusion (n M : Nat) (σ : SysState n) (h : SysReach n M σ) :
    (∀ i j : Fin n, holdsLock (σ.threads i) = true →
       holdsLock (σ.threads j) = true → i = j) ∧
    ((∀ i : Fin n, σ.threads i = .ready M) → σ.counter = n * M) := by
  obtain ⟨h01, hLock, hMutex, hRead, hSum⟩ := inv_reach n M σ h
  refine ⟨hMutex, ?_⟩
  intro hfin
  rw [hSum]
  calc ∑ i : Fin n, iterCount (σ.threads i)
      = ∑ _i : Fin n, M := Finset.sum_congr rfl (fun i _ => by rw [hfin i]; rfl)
    _ = n * M := by simp [Finset.sum_const, Finset.card_univ]

/-- Witness for C1: a complete concrete execution with one thread and one
iteration, from the initial state through test-and-set, counter read,
counter write and release, reaching the final state where the thread has
completed its iteration and the counter is 1 * 1. -/
theorem C1_witness :
    SysState.counter
      (⟨0, 1,
        Function.update (Function.update (Function.update
          (Function.update (initSys 1).threads 0 (TState.gotLock 0))
          0 (TState.readCtr 0 0)) 0 (TState.wrote 0)) 0 (TState.ready (0 + 1))⟩ :
        SysState 1) = 1 * 1 := by
  have h1 : SysStep 1 1 (initSys 1)
      ⟨1, 0, Function.update (initSys 1).threads 0 (TState.gotLock 0)⟩ :=
    SysStep.tas_success (initSys 1) 0 0 rfl Nat.one_pos rfl
  have h2 : SysStep 1 1
      (⟨1, 0, Function.update (initSys 1).threads 0 (TState.gotLock 0)⟩ : SysState 1)
      ⟨1, 0, Function.update (Function.update (initSys 1).threads 0 (TState.gotLock 0))
          0 (TState.readCtr 0 0)⟩ :=
    SysStep.read_counter _ 0 0 (by simp)
  have h3 : SysStep 1 1
      (⟨1, 0, Function.update (Function.update (initSys 1).threads 0 (TState.gotLock 0))
          0 (TState.readCtr 0 0)⟩ : SysState 1)
      ⟨1, 0 + 1, Function.update (Function.update (Function.update
          (initSys 1).threads 0 (TState.gotLock 0)) 0 (TState.readCtr 0 0))
          0 (TState.wrote 0)⟩ :=
    SysStep.write_counter _ 0 0 0 (by simp)
  have h4 : SysStep 1 1
      (⟨1, 0 + 1, Function.update (Function.update (Function.update
          (initSys 1).threads 0 (TState.gotLock 0)) 0 (TState.readCtr 0 0))
          0 (TState.wrote 0)⟩ : SysState 1)
      ⟨0, 1, Function.update (Function.update (Function.update
          (Function.update (initSys 1).threads 0 (TState.gotLock 0))
          0 (TState.readCtr 0 0)) 0 (TState.wrote 0)) 0 (TState.ready (0 + 1))⟩ :=
    SysStep.release _ 0 0 (by simp)
  have hreach : SysReach 1 1
      (⟨0, 1, Function.update (Function.update (Function.update
          (Function.update (initSys 1).threads 0 (TState.gotLock 0))
          0 (TState.readCtr 0 0)) 0 (TState.wrote 0)) 0 (TState.ready (0 + 1))⟩ :
        SysState 1) :=
    SysReach.step _ _ (SysReach.step _ _ (SysReach.step _ _
      (SysReach.step _ _ SysReach.init h1) h2) h3) h4
  refine (C1_mutual_exclusion 1 1 _ hreach).2 ?_
  intro i
  have hi : i = 0 := Fin.eq_zero i
  subst hi
  simp

end LlamaLock
